import Mathlib

/-!
Verification of the Raycast-TUI engine (src/main.rs) against its
natural-language specification.  The Rust code is shallowly embedded:
`f64` values become real numbers, `usize` becomes `Nat`, `i32` becomes
`Int` (with `Int.tdiv` for Rust's truncating division), and the
side-effecting render path is modelled as a pure function returning the
frame buffer together with the list of emitted terminal control
operations.
-/

set_option maxHeartbeats 1000000

namespace RaycastTUI

/-! ### Map model (src/main.rs lines 10-42, 69-75) -/

def MAP_WIDTH : Nat := 24

def MAP_HEIGHT : Nat := 24

/-- The fixed compiled-in map; `'1'` = wall, `'0'` = empty. -/
def MAP : List String :=
  [ "111111111111111111111111"
  , "100000000011000000000001"
  , "100000000011000000000001"
  , "100000000011000000000001"
  , "100000000000000000000001"
  , "100000000000000000000001"
  , "100000000000000000000001"
  , "100000000000000000000001"
  , "100000000000000000000001"
  , "100000000000000000000001"
  , "100000000000000000000001"
  , "100000000000000000000001"
  , "100000000000000000000001"
  , "100000000000000000000001"
  , "100000000000000000000001"
  , "100000000000000000000001"
  , "100000000000000000000001"
  , "100000000000000000000001"
  , "100000000000000000000001"
  , "100000000000000000000001"
  , "100000000000000000000001"
  , "100000000000000000000001"
  , "100000000000000000000001"
  , "111111111111111111111111" ]

/-- `Raycaster::get_map_value`: in-bounds cells are read from `MAP`
(byte minus `b'0'`), every out-of-bounds coordinate yields `1` (Wall). -/
def get_map_value (x y : Nat) : Nat :=
  if x < MAP_WIDTH ∧ y < MAP_HEIGHT then
    ((MAP.getD y "").toList.getD x '0').toNat - '0'.toNat
  else
    1

/-- Rust's `i32 as usize` cast on a 64-bit target: two's-complement
reinterpretation modulo `2^64`. -/
def usizeOfI32 (i : Int) : Nat := (i % 2 ^ 64).toNat

/-! ### Player state and input intents (src/main.rs lines 44-54, 272-303) -/

structure Player where
  x : ℝ
  y : ℝ
  angle : ℝ

structure Raycaster where
  player : Player
  last_width : Nat
  last_height : Nat

/-- The key codes that reach `Raycaster::update` (everything except the
quit keys, which exit the loop before `update`); `other` stands for any
key matched by the `_ => {}` arm. -/
inductive Key where
  | w | s | a | d | left | right | other
deriving DecidableEq

noncomputable def FOV : ℝ := 0.66

noncomputable def MOVE_SPEED : ℝ := 0.05

noncomputable def ROTATION_SPEED : ℝ := 0.03

/-- One arm of the `for key in keys` match in `Raycaster::update`:
accumulates `(move_x, move_y, rotate)`. -/
noncomputable def applyKey (angle : ℝ) (acc : ℝ × ℝ × ℝ) (k : Key) : ℝ × ℝ × ℝ :=
  match k with
  | .w => (acc.1 + Real.cos angle * MOVE_SPEED, acc.2.1 + Real.sin angle * MOVE_SPEED, acc.2.2)
  | .s => (acc.1 - Real.cos angle * MOVE_SPEED, acc.2.1 - Real.sin angle * MOVE_SPEED, acc.2.2)
  | .a => (acc.1 + Real.sin angle * MOVE_SPEED, acc.2.1 - Real.cos angle * MOVE_SPEED, acc.2.2)
  | .d => (acc.1 - Real.sin angle * MOVE_SPEED, acc.2.1 + Real.cos angle * MOVE_SPEED, acc.2.2)
  | .left => (acc.1, acc.2.1, acc.2.2 - ROTATION_SPEED)
  | .right => (acc.1, acc.2.1, acc.2.2 + ROTATION_SPEED)
  | .other => acc

/-- The accumulation loop of `Raycaster::update`: starting from
`(0.0, 0.0, 0.0)`, fold every key of the frame's intent list. -/
noncomputable def intentFold (angle : ℝ) (ks : List Key) : ℝ × ℝ × ℝ :=
  ks.foldl (applyKey angle) (0, 0, 0)

/-! ### Angle normalization (src/main.rs lines 325-331) -/

/-- The first normalization loop: `while angle < 0.0 { angle += 2π }`. -/
noncomputable def liftAngle (a : ℝ) : ℝ :=
  if h : a < 0 then liftAngle (a + 2 * Real.pi) else a
termination_by (⌈-a / (2 * Real.pi)⌉).toNat
decreasing_by
  have h2p : (0:ℝ) < 2 * Real.pi := by positivity
  have hdiv : -(a + 2 * Real.pi) / (2 * Real.pi) = -a / (2 * Real.pi) - 1 := by
    field_simp; ring
  rw [hdiv, Int.ceil_sub_one]
  have hpos : 0 < ⌈-a / (2 * Real.pi)⌉ :=
    Int.ceil_pos.mpr (div_pos (by linarith) h2p)
  omega

/-- The second normalization loop: `while angle >= 2π { angle -= 2π }`. -/
noncomputable def dropAngle (a : ℝ) : ℝ :=
  if h : 2 * Real.pi ≤ a then dropAngle (a - 2 * Real.pi) else a
termination_by (⌈a / (2 * Real.pi)⌉).toNat
decreasing_by
  have h2p : (0:ℝ) < 2 * Real.pi := by positivity
  have hdiv : (a - 2 * Real.pi) / (2 * Real.pi) = a / (2 * Real.pi) - 1 := by
    field_simp
  rw [hdiv, Int.ceil_sub_one]
  have hpos : 0 < ⌈a / (2 * Real.pi)⌉ :=
    Int.ceil_pos.mpr (div_pos (by linarith) h2p)
  omega

/-- Both normalization loops in sequence, as run at the end of
`Raycaster::update`. -/
noncomputable def normalizeAngle (a : ℝ) : ℝ := dropAngle (liftAngle a)

lemma liftAngle_nonneg (a : ℝ) : 0 ≤ liftAngle a := by
  induction a using liftAngle.induct with
  | case1 a h ih => rw [liftAngle, dif_pos h]; exact ih
  | case2 a h => rw [liftAngle, dif_neg h]; exact le_of_not_lt h

lemma dropAngle_lt (a : ℝ) : dropAngle a < 2 * Real.pi := by
  induction a using dropAngle.induct with
  | case1 a h ih => rw [dropAngle, dif_pos h]; exact ih
  | case2 a h => rw [dropAngle, dif_neg h]; exact lt_of_not_le h

lemma dropAngle_nonneg (a : ℝ) : 0 ≤ a → 0 ≤ dropAngle a := by
  induction a using dropAngle.induct with
  | case1 a h ih =>
      intro _
      rw [dropAngle, dif_pos h]
      have h2p : (0:ℝ) < 2 * Real.pi := by positivity
      exact ih (by linarith)
  | case2 a h => intro ha; rw [dropAngle, dif_neg h]; exact ha

lemma normalizeAngle_nonneg (a : ℝ) : 0 ≤ normalizeAngle a :=
  dropAngle_nonneg _ (liftAngle_nonneg a)

lemma normalizeAngle_lt (a : ℝ) : normalizeAngle a < 2 * Real.pi :=
  dropAngle_lt _

/-! ### Player update (src/main.rs lines 272-332) -/

/-- `Raycaster::update`: fold the intent list into a candidate
displacement and rotation, commit the displacement only when the
destination is in bounds and Empty, then apply rotation and normalize
the heading. -/
noncomputable def update (p : Player) (ks : List Key) : Player :=
  let m := intentFold p.angle ks
  let new_x := p.x + m.1
  let new_y := p.y + m.2.1
  let p' :=
    if 0 ≤ new_x ∧ new_x < (MAP_WIDTH : ℝ) ∧ 0 ≤ new_y ∧ new_y < (MAP_HEIGHT : ℝ) then
      if get_map_value (⌊new_x⌋).toNat (⌊new_y⌋).toNat = 0 then
        { p with x := new_x, y := new_y }
      else p
    else p
  { p' with angle := normalizeAngle (p'.angle + m.2.2) }

lemma update_angle_eq (p : Player) (ks : List Key) :
    (update p ks).angle = normalizeAngle (p.angle + (intentFold p.angle ks).2.2) := by
  simp only [update]
  split
  · split <;> rfl
  · rfl

lemma update_pos_cases (p : Player) (ks : List Key) :
    ((update p ks).x = p.x ∧ (update p ks).y = p.y)
      ∨ ((update p ks).x = p.x + (intentFold p.angle ks).1
          ∧ (update p ks).y = p.y + (intentFold p.angle ks).2.1) := by
  simp only [update]
  split
  · split
    · right; exact ⟨rfl, rfl⟩
    · left; exact ⟨rfl, rfl⟩
  · left; exact ⟨rfl, rfl⟩

lemma update_blocked_eq (p : Player) (ks : List Key)
    (h : ¬(0 ≤ p.x + (intentFold p.angle ks).1
            ∧ p.x + (intentFold p.angle ks).1 < (MAP_WIDTH : ℝ)
            ∧ 0 ≤ p.y + (intentFold p.angle ks).2.1
            ∧ p.y + (intentFold p.angle ks).2.1 < (MAP_HEIGHT : ℝ))
        ∨ get_map_value (⌊p.x + (intentFold p.angle ks).1⌋).toNat
            (⌊p.y + (intentFold p.angle ks).2.1⌋).toNat = 1) :
    (update p ks).x = p.x ∧ (update p ks).y = p.y := by
  simp only [update]
  rcases h with h | h
  · rw [if_neg h]; exact ⟨rfl, rfl⟩
  · split
    · rw [if_neg (by omega)]; exact ⟨rfl, rfl⟩
    · exact ⟨rfl, rfl⟩

/-! ### Ray caster (src/main.rs lines 77-134) -/

/-- The mutable locals of the DDA loop in `Raycaster::cast_ray`. -/
structure RayState where
  mapX : Int
  mapY : Int
  sideDistX : ℝ
  sideDistY : ℝ
  side : Bool

/-- The out-of-extent test `map_x < 0 || map_x >= MAP_WIDTH as i32 ||
map_y < 0 || map_y >= MAP_HEIGHT as i32`. -/
def oob (mx my : Int) : Prop :=
  mx < 0 ∨ (MAP_WIDTH : Int) ≤ mx ∨ my < 0 ∨ (MAP_HEIGHT : Int) ≤ my

instance (mx my : Int) : Decidable (oob mx my) := by
  unfold oob; infer_instance

/-- The head of the DDA loop body: advance along whichever axis has the
smaller accumulated side distance (`negX`/`negY` record the signs of
`step_x`/`step_y`). -/
noncomputable def rayStep (dx dy : ℝ) (negX negY : Bool) (s : RayState) : RayState :=
  if s.sideDistX < s.sideDistY then
    { mapX := s.mapX + (if negX then -1 else 1), mapY := s.mapY,
      sideDistX := s.sideDistX + dx, sideDistY := s.sideDistY, side := false }
  else
    { mapX := s.mapX, mapY := s.mapY + (if negY then -1 else 1),
      sideDistX := s.sideDistX, sideDistY := s.sideDistY + dy, side := true }

/-- Remaining in-extent cells ahead of `m` along one axis, used as the
termination measure of the DDA loop. -/
def axisFuel (neg : Bool) (bound m : Int) : Nat :=
  if neg then (m + 1).toNat else (bound - m).toNat

lemma rayStep_fuel_lt (dx dy : ℝ) (negX negY : Bool) (s : RayState)
    (h : ¬ oob (rayStep dx dy negX negY s).mapX (rayStep dx dy negX negY s).mapY) :
    axisFuel negX 24 (rayStep dx dy negX negY s).mapX
        + axisFuel negY 24 (rayStep dx dy negX negY s).mapY
      < axisFuel negX 24 s.mapX + axisFuel negY 24 s.mapY := by
  unfold rayStep oob MAP_WIDTH MAP_HEIGHT at *
  by_cases hc : s.sideDistX < s.sideDistY <;>
    simp only [hc, if_true, if_false, ite_true, ite_false] at h ⊢ <;>
    push_neg at h <;>
    unfold axisFuel <;>
    cases negX <;> cases negY <;>
    simp only [Bool.false_eq_true, if_true, if_false, ite_true, ite_false] at h ⊢ <;>
    omega

/-- The DDA loop `while !hit { .. }` of `Raycaster::cast_ray`: step,
then stop on leaving the map extent or on hitting a Wall cell. -/
noncomputable def castLoop (dx dy : ℝ) (negX negY : Bool) (s : RayState) : RayState :=
  let s' := rayStep dx dy negX negY s
  if h1 : oob s'.mapX s'.mapY then s'
  else if h2 : get_map_value s'.mapX.toNat s'.mapY.toNat = 1 then s'
  else castLoop dx dy negX negY s'
termination_by axisFuel negX 24 s.mapX + axisFuel negY 24 s.mapY
decreasing_by
  exact rayStep_fuel_lt dx dy negX negY s h1

/-- Fuel-indexed version of the DDA loop: `none` when the iteration
budget runs out. -/
noncomputable def castLoopFuel (fuel : Nat) (dx dy : ℝ) (negX negY : Bool)
    (s : RayState) : Option RayState :=
  match fuel with
  | 0 => none
  | fuel + 1 =>
    let s' := rayStep dx dy negX negY s
    if oob s'.mapX s'.mapY then some s'
    else if get_map_value s'.mapX.toNat s'.mapY.toNat = 1 then some s'
    else castLoopFuel fuel dx dy negX negY s'

lemma castLoopFuel_spec (fuel : Nat) (dx dy : ℝ) (negX negY : Bool) :
    ∀ s r, castLoopFuel fuel dx dy negX negY s = some r →
      oob r.mapX r.mapY ∨ get_map_value r.mapX.toNat r.mapY.toNat = 1 := by
  induction fuel with
  | zero => intro s r h; simp [castLoopFuel] at h
  | succ fuel ih =>
      intro s r h
      simp only [castLoopFuel] at h
      by_cases h1 : oob (rayStep dx dy negX negY s).mapX (rayStep dx dy negX negY s).mapY
      · rw [if_pos h1] at h
        obtain rfl := Option.some.inj h
        exact Or.inl h1
      · by_cases h2 : get_map_value (rayStep dx dy negX negY s).mapX.toNat
            (rayStep dx dy negX negY s).mapY.toNat = 1
        · rw [if_neg h1, if_pos h2] at h
          obtain rfl := Option.some.inj h
          exact Or.inr h2
        · rw [if_neg h1, if_neg h2] at h
          exact ih _ _ h

lemma castLoopFuel_eq_castLoop (fuel : Nat) (dx dy : ℝ) (negX negY : Bool)
    (s : RayState)
    (h : axisFuel negX 24 s.mapX + axisFuel negY 24 s.mapY < fuel) :
    castLoopFuel fuel dx dy negX negY s = some (castLoop dx dy negX negY s) := by
  induction fuel generalizing s with
  | zero => omega
  | succ fuel ih =>
      rw [castLoopFuel, castLoop]
      by_cases h1 : oob (rayStep dx dy negX negY s).mapX (rayStep dx dy negX negY s).mapY
      · simp only [h1, if_true, dif_pos]
      · by_cases h2 : get_map_value (rayStep dx dy negX negY s).mapX.toNat
            (rayStep dx dy negX negY s).mapY.toNat = 1
        · simp only [h1, h2, if_false, if_true, dif_neg, dif_pos, not_false_iff]
        · simp only [h1, h2, if_false, dif_neg, not_false_iff]
          exact ih _ (by
            have := rayStep_fuel_lt dx dy negX negY s h1
            omega)

lemma castLoop_spec (dx dy : ℝ) (negX negY : Bool) (s : RayState) :
    oob (castLoop dx dy negX negY s).mapX (castLoop dx dy negX negY s).mapY
      ∨ get_map_value (castLoop dx dy negX negY s).mapX.toNat
          (castLoop dx dy negX negY s).mapY.toNat = 1 := by
  apply castLoopFuel_spec (axisFuel negX 24 s.mapX + axisFuel negY 24 s.mapY + 1)
      dx dy negX negY s
  exact castLoopFuel_eq_castLoop _ dx dy negX negY s (by omega)

/-- The initialization block of `Raycaster::cast_ray` (lines 78-102):
trig components, per-axis deltas with the `1e30` sentinel, step signs,
starting cell, and initial side distances. -/
structure RayInit where
  deltaX : ℝ
  deltaY : ℝ
  negX : Bool
  negY : Bool
  s0 : RayState

noncomputable def castInit (p : Player) (ray_angle : ℝ) : RayInit :=
  let sin := Real.sin ray_angle
  let cos := Real.cos ray_angle
  let x := p.x
  let y := p.y
  let delta_x := if |cos| < 0.0001 then 1e30 else |1 / cos|
  let delta_y := if |sin| < 0.0001 then 1e30 else |1 / sin|
  let map_x := ⌊x⌋
  let map_y := ⌊y⌋
  let side_dist_x := if cos < 0 then (x - map_x) * delta_x else (map_x + 1 - x) * delta_x
  let side_dist_y := if sin < 0 then (y - map_y) * delta_y else (map_y + 1 - y) * delta_y
  { deltaX := delta_x, deltaY := delta_y,
    negX := if cos < 0 then true else false,
    negY := if sin < 0 then true else false,
    s0 := { mapX := map_x, mapY := map_y,
            sideDistX := side_dist_x, sideDistY := side_dist_y, side := false } }

/-- `Raycaster::cast_ray`: run the DDA loop from the initial state and
return the perpendicular wall distance. -/
noncomputable def cast_ray (p : Player) (ray_angle : ℝ) : ℝ :=
  let i := castInit p ray_angle
  let r := castLoop i.deltaX i.deltaY i.negX i.negY i.s0
  if r.side = false then r.sideDistX - i.deltaX else r.sideDistY - i.deltaY

/-! ### Shading model (src/main.rs lines 230-270) -/

/-- The log-normalized depth value computed inside
`Raycaster::distance_to_color`: clamp the distance to `[0.1, 15.0]`,
then `1 - ln(clamped + 1) / ln(15 + 1)`. -/
noncomputable def wallNormalized (distance : ℝ) : ℝ :=
  let clamped_dist := min (max distance 0.1) 15.0
  let log_dist := Real.log (clamped_dist + 1.0)
  let max_log := Real.log (15.0 + 1.0)
  1.0 - log_dist / max_log

/-- `Raycaster::distance_to_color`: warm band 220-226 when the
normalized value exceeds 0.5, dark band 88-94 otherwise; the `as u8`
cast of the clamped nonnegative value is `Int.toNat ∘ Int.floor`. -/
noncomputable def distance_to_color (distance : ℝ) : ℕ :=
  let normalized := wallNormalized distance
  if normalized > 0.5 then
    (⌊min (max (220.0 + (normalized - 0.5) * 12.0) 220.0) 226.0⌋).toNat
  else
    (⌊min (max (88.0 + normalized * 12.0) 88.0) 94.0⌋).toNat

/-- `Raycaster::ceiling_color`: sky-blue band 39-45. -/
noncomputable def ceiling_color (dist_from_center : ℝ) : ℕ :=
  let normalized := min dist_from_center 1.0
  (⌊min (max (39.0 + normalized * 6.0) 39.0) 45.0⌋).toNat

/-- `Raycaster::floor_color`: gray band 238-244. -/
noncomputable def floor_color (dist_from_center : ℝ) : ℕ :=
  let normalized := min dist_from_center 1.0
  (⌊min (max (238.0 + normalized * 6.0) 238.0) 244.0⌋).toNat

/-! ### Frame renderer (src/main.rs lines 136-228) -/

/-- One frame-buffer sample of `Raycaster::render`: the pixel written at
column `x`, double-resolution row `y`.  Rust's `i32` division truncates
toward zero, hence `Int.tdiv`. -/
noncomputable def columnPixel (p : Player) (screen_width double_height x y : ℕ) : ℕ :=
  let camera_x := 2.0 * (x : ℝ) / (screen_width : ℝ) - 1.0
  let ray_angle := p.angle + Real.arctan (camera_x * FOV)
  let perp_wall_dist := cast_ray p ray_angle
  let line_height := (⌊(double_height : ℝ) / max perp_wall_dist 0.1⌋).toNat
  let draw_start := max (Int.tdiv ((double_height : Int) - (line_height : Int)) 2) 0
  let draw_end := min (Int.tdiv ((double_height : Int) + (line_height : Int)) 2) (double_height : Int)
  let wall_color := distance_to_color perp_wall_dist
  let y_i32 := (y : Int)
  if draw_start ≤ y_i32 ∧ y_i32 < draw_end then
    wall_color
  else if y_i32 < draw_start then
    ceiling_color (((draw_start - y_i32 : Int) : ℝ) / (double_height : ℝ))
  else
    floor_color (((y_i32 - draw_end : Int) : ℝ) / (double_height : ℝ))

/-- The transient frame buffer of `Raycaster::render`: `2 * h` rows of
`w` color samples, rebuilt from scratch from the player state. -/
noncomputable def buildFrame (p : Player) (w h : ℕ) : List (List ℕ) :=
  (List.range (2 * h)).map fun y => (List.range w).map fun x => columnPixel p w (2 * h) x y

/-- The terminal control operations the render path can emit before the
glyph stream: a full clear (`Clear(ClearType::All)`) and the
cursor-home escape. -/
inductive TermOp where
  | clearAll
  | cursorHome
deriving DecidableEq

/-- The result of one `Raycaster::render` call against a queried screen
size: the updated engine state, the control operations emitted in
order, and the frame buffer that was built. -/
structure RenderResult where
  state : Raycaster
  ops : List TermOp
  frame : List (List ℕ)

/-- `Raycaster::render` with the terminal collaborators abstracted: the
queried size is `(w, h)`; a full clear is emitted and the cached size
updated exactly when the size differs from the cached one, then the
frame buffer is rebuilt and emitted starting with the cursor-home
sequence. -/
noncomputable def renderStep (r : Raycaster) (w h : ℕ) : RenderResult :=
  let resized := w ≠ r.last_width ∨ h ≠ r.last_height
  let r1 := if resized then { r with last_width := w, last_height := h } else r
  { state := r1
  , ops := (if resized then [TermOp.clearAll] else []) ++ [TermOp.cursorHome]
  , frame := buildFrame r1.player w h }

/-! ### Claim theorems -/

/-- C1: for every player state and every intent list whose summed
candidate displacement lands in a Wall cell or outside the map bounds,
`update` leaves both coordinates of the player position unchanged; and
in every case the displacement is committed atomically — both axes
together or not at all. -/
theorem blocked_move_rejected (p : Player) (ks : List Key) :
    (¬(0 ≤ p.x + (intentFold p.angle ks).1
          ∧ p.x + (intentFold p.angle ks).1 < (MAP_WIDTH : ℝ)
          ∧ 0 ≤ p.y + (intentFold p.angle ks).2.1
          ∧ p.y + (intentFold p.angle ks).2.1 < (MAP_HEIGHT : ℝ))
        ∨ get_map_value (⌊p.x + (intentFold p.angle ks).1⌋).toNat
            (⌊p.y + (intentFold p.angle ks).2.1⌋).toNat = 1 →
      (update p ks).x = p.x ∧ (update p ks).y = p.y)
    ∧ (((update p ks).x = p.x ∧ (update p ks).y = p.y)
        ∨ ((update p ks).x = p.x + (intentFold p.angle ks).1
            ∧ (update p ks).y = p.y + (intentFold p.angle ks).2.1)) :=
  ⟨update_blocked_eq p ks, update_pos_cases p ks⟩

theorem blocked_move_rejected_witness :
    (update ⟨0.5, 0.5, 0⟩ []).x = 0.5 ∧ (update ⟨0.5, 0.5, 0⟩ []).y = 0.5 :=
  (blocked_move_rejected ⟨0.5, 0.5, 0⟩ []).1 (Or.inr (by
    have h0 : intentFold (0:ℝ) ([] : List Key) = (0, 0, 0) := rfl
    rw [h0]
    have hf : ⌊(0.5:ℝ) + 0⌋ = 0 := by
      rw [Int.floor_eq_iff]
      norm_num
    rw [hf]
    decide))

/-- C2: for every starting heading and every intent list, including
rotation sums of several full turns either way, the player heading
after `update` lies in `[0, 2π)`. -/
theorem heading_in_range (p : Player) (ks : List Key) :
    0 ≤ (update p ks).angle ∧ (update p ks).angle < 2 * Real.pi := by
  rw [update_angle_eq]
  exact ⟨normalizeAngle_nonneg _, normalizeAngle_lt _⟩

/-- C3: every coordinate pair outside `[0, map_width) × [0, map_height)`
— including, through the `i32 as usize` cast, large negative and large
positive values — makes the map lookup return Wall (`1`); every
in-range pair returns the cell stored in the fixed map. -/
theorem map_lookup_wall_outside (x y : ℕ) (ix iy : Int) :
    (¬(x < MAP_WIDTH ∧ y < MAP_HEIGHT) → get_map_value x y = 1)
    ∧ (x < MAP_WIDTH → y < MAP_HEIGHT →
        get_map_value x y = ((MAP.getD y "").toList.getD x '0').toNat - '0'.toNat)
    ∧ (-(2 ^ 31) ≤ ix → ix < 2 ^ 31 → -(2 ^ 31) ≤ iy → iy < 2 ^ 31 →
        (ix < 0 ∨ (MAP_WIDTH : Int) ≤ ix ∨ iy < 0 ∨ (MAP_HEIGHT : Int) ≤ iy) →
        get_map_value (usizeOfI32 ix) (usizeOfI32 iy) = 1) := by
  refine ⟨?_, ?_, ?_⟩
  · intro h
    unfold get_map_value
    rw [if_neg h]
  · intro hx hy
    unfold get_map_value
    rw [if_pos ⟨hx, hy⟩]
  · intro h1 h2 h3 h4 h5
    have key : ∀ i : Int, -(2 ^ 31) ≤ i → i < 2 ^ 31 → (i < 0 ∨ (24:Int) ≤ i) →
        24 ≤ usizeOfI32 i := by
      intro i g1 g2 g3
      unfold usizeOfI32
      have hp : (2:Int) ^ 64 = 18446744073709551616 := by norm_num
      have hq : (2:Int) ^ 31 = 2147483648 := by norm_num
      rw [hp]
      rw [hq] at g1 g2
      rcases g3 with g3 | g3
      · have e1 : i % 18446744073709551616 = i + 18446744073709551616 := by
          rw [← Int.add_emod_self]
          exact Int.emod_eq_of_lt (by omega) (by omega)
        omega
      · have e1 : i % 18446744073709551616 = i := Int.emod_eq_of_lt (by omega) (by omega)
        omega
    have hnot : ¬(usizeOfI32 ix < MAP_WIDTH ∧ usizeOfI32 iy < MAP_HEIGHT) := by
      simp only [MAP_WIDTH, MAP_HEIGHT] at h5 ⊢
      rcases h5 with h5 | h5 | h5 | h5
      · have := key ix h1 h2 (Or.inl h5); omega
      · have := key ix h1 h2 (Or.inr h5); omega
      · have := key iy h3 h4 (Or.inl h5); omega
      · have := key iy h3 h4 (Or.inr h5); omega
    unfold get_map_value
    rw [if_neg hnot]

theorem map_lookup_wall_outside_witness :
    get_map_value 100 3 = 1 ∧ get_map_value 3 30 = 1
      ∧ get_map_value (usizeOfI32 (-5)) (usizeOfI32 7) = 1
      ∧ get_map_value 3 1 = ((MAP.getD 1 "").toList.getD 3 '0').toNat - '0'.toNat :=
  ⟨(map_lookup_wall_outside 100 3 0 0).1 (by decide),
   (map_lookup_wall_outside 3 30 0 0).1 (by decide),
   (map_lookup_wall_outside 0 0 (-5) 7).2.2 (by decide) (by decide) (by decide) (by decide)
     (Or.inl (by decide)),
   (map_lookup_wall_outside 3 1 0 0).2.1 (by decide) (by decide)⟩

/-- C7: rendering is deterministic — the frame buffer is a pure
function of the player state and screen dimensions, so two renders in
succession without a resize build identical frame buffers. -/
theorem render_frame_deterministic (r : Raycaster) (w h : ℕ) :
    (renderStep r w h).frame = buildFrame r.player w h
    ∧ (renderStep (renderStep r w h).state w h).frame = (renderStep r w h).frame := by
  have hp : ∀ (r' : Raycaster) (w' h' : ℕ), (renderStep r' w' h').state.player = r'.player := by
    intro r' w' h'
    simp only [renderStep]
    split <;> rfl
  have hf : ∀ (r' : Raycaster) (w' h' : ℕ),
      (renderStep r' w' h').frame = buildFrame r'.player w' h' := by
    intro r' w' h'
    simp only [renderStep]
    split <;> rfl
  exact ⟨hf r w h, by rw [hf, hf, hp]⟩

/-- C8: across two consecutive render calls, a full-clear sequence is
emitted on the second call exactly when the queried dimensions differ
from the cached ones (which the first call set to its queried size);
with unchanged dimensions only the cursor-home sequence is emitted. -/
theorem render_clear_iff (r : Raycaster) (w1 h1 w2 h2 : ℕ) :
    (TermOp.clearAll ∈ (renderStep r w1 h1).ops ↔ (w1 ≠ r.last_width ∨ h1 ≠ r.last_height))
    ∧ (renderStep r w1 h1).state.last_width = w1
    ∧ (renderStep r w1 h1).state.last_height = h1
    ∧ TermOp.cursorHome ∈ (renderStep r w1 h1).ops
    ∧ (TermOp.clearAll ∈ (renderStep (renderStep r w1 h1).state w2 h2).ops
        ↔ (w2 ≠ w1 ∨ h2 ≠ h1))
    ∧ (renderStep (renderStep r w1 h1).state w1 h1).ops = [TermOp.cursorHome] := by
  have hops : ∀ (r' : Raycaster) (w' h' : ℕ),
      (renderStep r' w' h').ops =
        if w' ≠ r'.last_width ∨ h' ≠ r'.last_height
        then [TermOp.clearAll, TermOp.cursorHome] else [TermOp.cursorHome] := by
    intro r' w' h'
    simp only [renderStep]
    split <;> rfl
  have hlw : ∀ (r' : Raycaster) (w' h' : ℕ), (renderStep r' w' h').state.last_width = w' := by
    intro r' w' h'
    simp only [renderStep]
    split
    · rfl
    · next hres => push_neg at hres; exact hres.1.symm
  have hlh : ∀ (r' : Raycaster) (w' h' : ℕ), (renderStep r' w' h').state.last_height = h' := by
    intro r' w' h'
    simp only [renderStep]
    split
    · rfl
    · next hres => push_neg at hres; exact hres.2.symm
  refine ⟨?_, hlw r w1 h1, hlh r w1 h1, ?_, ?_, ?_⟩
  · rw [hops]
    split
    · next hres => simp only [hres, iff_true]; decide
    · next hres => simp only [hres, iff_false]; decide
  · rw [hops]
    split <;> decide
  · rw [hops, hlw, hlh]
    split
    · next hres => simp only [hres, iff_true]; decide
    · next hres => simp only [hres, iff_false]; decide
  · rw [hops, hlw, hlh]
    rw [if_neg (by push_neg; exact ⟨rfl, rfl⟩)]

theorem render_clear_iff_witness :
    TermOp.clearAll ∈ (renderStep ⟨⟨2, 2, 0⟩, 0, 0⟩ 80 24).ops
    ∧ (renderStep (renderStep ⟨⟨2, 2, 0⟩, 0, 0⟩ 80 24).state 80 24).ops = [TermOp.cursorHome] :=
  ⟨(render_clear_iff ⟨⟨2, 2, 0⟩, 0, 0⟩ 80 24 80 24).1.mpr (Or.inl (by decide)),
   (render_clear_iff ⟨⟨2, 2, 0⟩, 0, 0⟩ 80 24 80 24).2.2.2.2.2⟩

/-- C10: in every call to `update`, rotation is committed
unconditionally after the movement phase (even when the candidate
displacement was rejected), and the movement direction vectors are
computed from the pre-update heading. -/
theorem rotation_unconditional (p : Player) (ks : List Key) :
    (update p ks).angle = normalizeAngle (p.angle + (intentFold p.angle ks).2.2)
    ∧ (((update p ks).x = p.x ∧ (update p ks).y = p.y)
        ∨ ((update p ks).x = p.x + (intentFold p.angle ks).1
            ∧ (update p ks).y = p.y + (intentFold p.angle ks).2.1)) :=
  ⟨update_angle_eq p ks, update_pos_cases p ks⟩

lemma wallNormalized_antitone {d1 d2 : ℝ} (h : d1 ≤ d2) :
    wallNormalized d2 ≤ wallNormalized d1 := by
  unfold wallNormalized
  simp only
  have hc1 : (0.1:ℝ) ≤ min (max d1 0.1) 15.0 :=
    le_min (le_max_right _ _) (by norm_num)
  have hle : min (max d1 0.1) 15.0 ≤ min (max d2 0.1) 15.0 :=
    min_le_min (max_le_max h le_rfl) le_rfl
  have hlog : Real.log (min (max d1 0.1) 15.0 + 1.0) ≤ Real.log (min (max d2 0.1) 15.0 + 1.0) :=
    Real.log_le_log (by linarith) (by linarith)
  have hL : (0:ℝ) < Real.log (15.0 + 1.0) := Real.log_pos (by norm_num)
  have := (div_le_div_right hL).mpr hlog
  linarith

lemma distance_to_color_le {d1 d2 : ℝ} (h : d1 ≤ d2) :
    distance_to_color d2 ≤ distance_to_color d1 := by
  have hn : wallNormalized d2 ≤ wallNormalized d1 := wallNormalized_antitone h
  unfold distance_to_color
  simp only
  by_cases h1 : wallNormalized d1 > 0.5 <;> by_cases h2 : wallNormalized d2 > 0.5
  · rw [if_pos h1, if_pos h2]
    apply Int.toNat_le_toNat
    apply Int.floor_mono
    exact min_le_min (max_le_max (by linarith) le_rfl) le_rfl
  · rw [if_pos h1, if_neg h2]
    have hub : (⌊min (max (88.0 + wallNormalized d2 * 12.0) 88.0) 94.0⌋).toNat ≤ 94 := by
      have hm : min (max (88.0 + wallNormalized d2 * 12.0) 88.0) 94.0 ≤ ((94:Int):ℝ) := by
        norm_num [min_le_right]
      have := Int.floor_mono hm
      rw [Int.floor_intCast] at this
      omega
    have hlb : 220 ≤ (⌊min (max (220.0 + (wallNormalized d1 - 0.5) * 12.0) 220.0) 226.0⌋).toNat := by
      have hm : ((220:Int):ℝ) ≤ min (max (220.0 + (wallNormalized d1 - 0.5) * 12.0) 220.0) 226.0 := by
        have hmax := le_max_right (220.0 + (wallNormalized d1 - 0.5) * 12.0) (220.0:ℝ)
        have hcast : ((220:Int):ℝ) = 220.0 := by norm_num
        rw [hcast]
        exact le_min hmax (by norm_num)
      have := Int.le_floor.mpr hm
      omega
    omega
  · exact absurd (lt_of_lt_of_le h2 hn) h1
  · rw [if_neg h1, if_neg h2]
    apply Int.toNat_le_toNat
    apply Int.floor_mono
    exact min_le_min (max_le_max (by linarith) le_rfl) le_rfl

lemma distance_to_color_bands (d : ℝ) :
    (0.5 < wallNormalized d → 220 ≤ distance_to_color d ∧ distance_to_color d ≤ 226)
    ∧ (wallNormalized d ≤ 0.5 → 88 ≤ distance_to_color d ∧ distance_to_color d ≤ 94) := by
  unfold distance_to_color
  simp only
  constructor
  · intro h
    rw [if_pos h]
    constructor
    · have hm : ((220:Int):ℝ) ≤ min (max (220.0 + (wallNormalized d - 0.5) * 12.0) 220.0) 226.0 := by
        have hmax := le_max_right (220.0 + (wallNormalized d - 0.5) * 12.0) (220.0:ℝ)
        have hcast : ((220:Int):ℝ) = 220.0 := by norm_num
        rw [hcast]
        exact le_min hmax (by norm_num)
      have := Int.le_floor.mpr hm
      omega
    · have hm : min (max (220.0 + (wallNormalized d - 0.5) * 12.0) 220.0) 226.0 ≤ ((226:Int):ℝ) := by
        norm_num [min_le_right]
      have := Int.floor_mono hm
      rw [Int.floor_intCast] at this
      omega
  · intro h
    rw [if_neg (not_lt.mpr h)]
    constructor
    · have hm : ((88:Int):ℝ) ≤ min (max (88.0 + wallNormalized d * 12.0) 88.0) 94.0 := by
        have hmax := le_max_right (88.0 + wallNormalized d * 12.0) (88.0:ℝ)
        have hcast : ((88:Int):ℝ) = 88.0 := by norm_num
        rw [hcast]
        exact le_min hmax (by norm_num)
      have := Int.le_floor.mpr hm
      omega
    · have hm : min (max (88.0 + wallNormalized d * 12.0) 88.0) 94.0 ≤ ((94:Int):ℝ) := by
        norm_num [min_le_right]
      have := Int.floor_mono hm
      rw [Int.floor_intCast] at this
      omega

/-- C6: for distances `d1 ≤ d2` in `[0.1, 15.0]` the wall-shading
output for `d2` is never a brighter-coded band than for `d1`: the color
code is monotonically non-increasing in distance; moreover the bright
warm sub-range 220-226 is selected exactly when the log-normalized
value exceeds 0.5, the dark sub-range 88-94 otherwise, each clamped to
its 6-step extent. -/
theorem wall_shading_monotone :
    (∀ d1 d2 : ℝ, 0.1 ≤ d1 → d1 ≤ d2 → d2 ≤ 15 →
        distance_to_color d2 ≤ distance_to_color d1)
    ∧ (∀ d : ℝ,
        (0.5 < wallNormalized d → 220 ≤ distance_to_color d ∧ distance_to_color d ≤ 226)
        ∧ (wallNormalized d ≤ 0.5 → 88 ≤ distance_to_color d ∧ distance_to_color d ≤ 94)) :=
  ⟨fun _ _ _ h _ => distance_to_color_le h, distance_to_color_bands⟩

theorem wall_shading_monotone_witness :
    (0.1:ℝ) ≤ 1 ∧ (1:ℝ) ≤ 2 ∧ (2:ℝ) ≤ 15 ∧ distance_to_color 2 ≤ distance_to_color 1 :=
  ⟨by norm_num, by norm_num, by norm_num,
   wall_shading_monotone.1 1 2 (by norm_num) (by norm_num) (by norm_num)⟩

lemma intentFold_replicate_w (angle : ℝ) (n : ℕ) :
    intentFold angle (List.replicate n Key.w)
      = ((n:ℝ) * (Real.cos angle * MOVE_SPEED), (n:ℝ) * (Real.sin angle * MOVE_SPEED), 0) := by
  have aux : ∀ (m : ℕ) (acc : ℝ × ℝ × ℝ),
      List.foldl (applyKey angle) acc (List.replicate m Key.w)
        = (acc.1 + (m:ℝ) * (Real.cos angle * MOVE_SPEED),
           acc.2.1 + (m:ℝ) * (Real.sin angle * MOVE_SPEED), acc.2.2) := by
    intro m
    induction m with
    | zero => intro acc; simp
    | succ m ih =>
        intro acc
        rw [List.replicate_succ, List.foldl_cons, ih]
        simp only [applyKey, Prod.mk.injEq]
        push_cast
        refine ⟨by ring, by ring, trivial⟩
  unfold intentFold
  rw [aux]
  simp

/-- C9: intents are processed as a list, not a set — `n` forward
intents displace by `n * MOVE_SPEED` along the heading — and collision
is checked only against the single final destination cell, so a long
one-frame displacement crosses the Wall cells at `(10, 1)` and
`(11, 1)` from `(9.5, 1.5)` into the Empty cell `(12, 1)` beyond. -/
theorem forward_intents_accumulate :
    (∀ (angle : ℝ) (n : ℕ), intentFold angle (List.replicate n Key.w)
        = ((n:ℝ) * (Real.cos angle * MOVE_SPEED), (n:ℝ) * (Real.sin angle * MOVE_SPEED), 0))
    ∧ get_map_value 10 1 = 1 ∧ get_map_value 11 1 = 1 ∧ get_map_value 12 1 = 0
    ∧ (update ⟨9.5, 1.5, 0⟩ (List.replicate 60 Key.w)).x = 12.5
    ∧ (update ⟨9.5, 1.5, 0⟩ (List.replicate 60 Key.w)).y = 1.5 := by
  have hm : intentFold ((⟨9.5, 1.5, 0⟩ : Player).angle) (List.replicate 60 Key.w)
      = (3, 0, 0) := by
    show intentFold 0 (List.replicate 60 Key.w) = (3, 0, 0)
    rw [intentFold_replicate_w]
    norm_num [MOVE_SPEED]
  refine ⟨intentFold_replicate_w, by decide, by decide, by decide, ?_, ?_⟩ <;>
  · simp only [update, hm]
    rw [if_pos (by norm_num [MAP_WIDTH, MAP_HEIGHT] :
          (0:ℝ) ≤ (⟨9.5, 1.5, 0⟩ : Player).x + 3
          ∧ (⟨9.5, 1.5, 0⟩ : Player).x + 3 < (MAP_WIDTH : ℝ)
          ∧ (0:ℝ) ≤ (⟨9.5, 1.5, 0⟩ : Player).y + 0
          ∧ (⟨9.5, 1.5, 0⟩ : Player).y + 0 < (MAP_HEIGHT : ℝ))]
    rw [if_pos ?_]
    · norm_num
    · have hfx : ⌊(⟨9.5, 1.5, 0⟩ : Player).x + 3⌋ = 12 := by
        show ⌊(9.5:ℝ) + 3⌋ = 12
        rw [Int.floor_eq_iff]
        norm_num
      have hfy : ⌊(⟨9.5, 1.5, 0⟩ : Player).y + 0⌋ = 1 := by
        show ⌊(1.5:ℝ) + 0⌋ = 1
        rw [Int.floor_eq_iff]
        norm_num
      rw [hfx, hfy]
      decide

lemma castInit_s0_mapX (p : Player) (θ : ℝ) : (castInit p θ).s0.mapX = ⌊p.x⌋ := rfl

lemma castInit_s0_mapY (p : Player) (θ : ℝ) : (castInit p θ).s0.mapY = ⌊p.y⌋ := rfl

/-- C4: for every origin inside the map extent and every ray angle
(including axis-aligned ones that hit the `1e30` sentinel), the DDA
traversal terminates — 49 iterations of fuel always suffice — and it
stops exactly on a state that is out of the map extent or on a Wall
cell, agreeing with the total loop function `castLoop`. -/
theorem ray_cast_terminates (p : Player) (θ : ℝ)
    (hx0 : 0 ≤ p.x) (hx1 : p.x < 24) (hy0 : 0 ≤ p.y) (hy1 : p.y < 24) :
    ∃ r : RayState,
      castLoopFuel 49 (castInit p θ).deltaX (castInit p θ).deltaY
          (castInit p θ).negX (castInit p θ).negY (castInit p θ).s0 = some r
      ∧ (oob r.mapX r.mapY ∨ get_map_value r.mapX.toNat r.mapY.toNat = 1)
      ∧ castLoop (castInit p θ).deltaX (castInit p θ).deltaY
          (castInit p θ).negX (castInit p θ).negY (castInit p θ).s0 = r := by
  refine ⟨castLoop (castInit p θ).deltaX (castInit p θ).deltaY
      (castInit p θ).negX (castInit p θ).negY (castInit p θ).s0, ?_, ?_, rfl⟩
  · apply castLoopFuel_eq_castLoop
    have hmx0 : 0 ≤ ⌊p.x⌋ := Int.floor_nonneg.mpr hx0
    have hmx1 : ⌊p.x⌋ < 24 := Int.floor_lt.mpr (by exact_mod_cast hx1)
    have hmy0 : 0 ≤ ⌊p.y⌋ := Int.floor_nonneg.mpr hy0
    have hmy1 : ⌊p.y⌋ < 24 := Int.floor_lt.mpr (by exact_mod_cast hy1)
    rw [castInit_s0_mapX, castInit_s0_mapY]
    cases (castInit p θ).negX <;> cases (castInit p θ).negY <;>
      simp only [axisFuel, if_true, if_false, ite_true, ite_false, Bool.false_eq_true] <;>
      omega
  · exact castLoop_spec _ _ _ _ _

theorem ray_cast_terminates_witness :
    ((0:ℝ) ≤ (⟨2, 2, 0⟩ : Player).x ∧ (⟨2, 2, 0⟩ : Player).x < 24)
    ∧ ∃ r : RayState,
        castLoopFuel 49 (castInit ⟨2, 2, 0⟩ 0).deltaX (castInit ⟨2, 2, 0⟩ 0).deltaY
            (castInit ⟨2, 2, 0⟩ 0).negX (castInit ⟨2, 2, 0⟩ 0).negY
            (castInit ⟨2, 2, 0⟩ 0).s0 = some r
        ∧ (oob r.mapX r.mapY ∨ get_map_value r.mapX.toNat r.mapY.toNat = 1)
        ∧ castLoop (castInit ⟨2, 2, 0⟩ 0).deltaX (castInit ⟨2, 2, 0⟩ 0).deltaY
            (castInit ⟨2, 2, 0⟩ 0).negX (castInit ⟨2, 2, 0⟩ 0).negY
            (castInit ⟨2, 2, 0⟩ 0).s0 = r :=
  ⟨⟨by norm_num, by norm_num⟩,
   ray_cast_terminates ⟨2, 2, 0⟩ 0 (by norm_num) (by norm_num) (by norm_num) (by norm_num)⟩

lemma castInit_nat_zero (a b : ℕ) (θ : ℝ) :
    castInit ⟨(a:ℝ), (b:ℝ), θ⟩ 0
      = ⟨1, 1e30, false, false, ⟨(a:Int), (b:Int), 1, 1e30, false⟩⟩ := by
  unfold castInit
  simp only [Real.sin_zero, Real.cos_zero, Int.floor_natCast]
  norm_num

lemma castLoop_axis_run (a b k : ℕ) (hb : b < 24) (hak : a + k < 24)
    (hempty : ∀ j, j < a + k → a < j → get_map_value j b = 0)
    (hwall : get_map_value (a + k) b = 1) :
    ∀ d i, i + d + 1 = k →
      castLoop 1 1e30 false false ⟨(a:Int) + (i:Int), (b:Int), (i:ℝ) + 1, 1e30, false⟩
        = ⟨(a:Int) + (k:Int), (b:Int), (k:ℝ) + 1, 1e30, false⟩ := by
  intro d
  induction d with
  | zero =>
      intro i hi
      have hlt : (i:ℝ) + 1 < 1e30 := by
        have hi24 : (i:ℝ) ≤ 23 := by exact_mod_cast (by omega : i ≤ 23)
        have hbig : (24:ℝ) < 1e30 := by norm_num
        linarith
      have hstep : rayStep 1 1e30 false false
            ⟨(a:Int) + (i:Int), (b:Int), (i:ℝ) + 1, 1e30, false⟩
          = ⟨(a:Int) + (i:Int) + 1, (b:Int), (i:ℝ) + 1 + 1, 1e30, false⟩ := by
        simp only [rayStep]
        rw [if_pos hlt]
        simp
      have hoob : ¬ oob ((a:Int) + (i:Int) + 1) ((b:Int)) := by
        unfold oob MAP_WIDTH MAP_HEIGHT
        push_neg
        omega
      have htn : ((a:Int) + (i:Int) + 1).toNat = a + i + 1 := by omega
      have htb : ((b:Int)).toNat = b := by omega
      have hhit : get_map_value ((a:Int) + (i:Int) + 1).toNat ((b:Int)).toNat = 1 := by
        rw [htn, htb]
        have hik : a + i + 1 = a + k := by omega
        rw [hik]
        exact hwall
      rw [castLoop]
      simp only [hstep]
      rw [dif_neg hoob, dif_pos hhit]
      have hk1 : k = i + 1 := by omega
      subst hk1
      simp only [RayState.mk.injEq]
      refine ⟨by push_cast; ring, trivial, by push_cast; ring, trivial, trivial⟩
  | succ d ih =>
      intro i hi
      have hlt : (i:ℝ) + 1 < 1e30 := by
        have hi24 : (i:ℝ) ≤ 23 := by exact_mod_cast (by omega : i ≤ 23)
        have hbig : (24:ℝ) < 1e30 := by norm_num
        linarith
      have hstep : rayStep 1 1e30 false false
            ⟨(a:Int) + (i:Int), (b:Int), (i:ℝ) + 1, 1e30, false⟩
          = ⟨(a:Int) + (i:Int) + 1, (b:Int), (i:ℝ) + 1 + 1, 1e30, false⟩ := by
        simp only [rayStep]
        rw [if_pos hlt]
        simp
      have hoob : ¬ oob ((a:Int) + (i:Int) + 1) ((b:Int)) := by
        unfold oob MAP_WIDTH MAP_HEIGHT
        push_neg
        omega
      have htn : ((a:Int) + (i:Int) + 1).toNat = a + i + 1 := by omega
      have htb : ((b:Int)).toNat = b := by omega
      have hmiss : ¬ get_map_value ((a:Int) + (i:Int) + 1).toNat ((b:Int)).toNat = 1 := by
        rw [htn, htb]
        have := hempty (a + i + 1) (by omega) (by omega)
        omega
      rw [castLoop]
      simp only [hstep]
      rw [dif_neg hoob, dif_neg hmiss]
      have e1 : (a:Int) + (i:Int) + 1 = (a:Int) + ((i + 1 : ℕ):Int) := by push_cast; ring
      have e2 : (i:ℝ) + 1 + 1 = ((i + 1 : ℕ):ℝ) + 1 := by push_cast; ring
      rw [e1, e2]
      exact ih (i + 1) (by omega)

/-- C5: casting from an origin at integer cell coordinates along the
axis-aligned angle `0`, with the nearest wall `k` whole cells away in
that direction, returns a perpendicular distance of exactly `k` (the
real-valued model is exact where the floats carry a tolerance). -/
theorem axis_aligned_distance (a b k : ℕ) (θ : ℝ)
    (hb : b < 24) (hk : 1 ≤ k) (hak : a + k < 24)
    (hempty : ∀ j, j < a + k → a < j → get_map_value j b = 0)
    (hwall : get_map_value (a + k) b = 1) :
    cast_ray ⟨(a:ℝ), (b:ℝ), θ⟩ 0 = (k:ℝ) := by
  simp only [cast_ray]
  rw [castInit_nat_zero]
  have hrun := castLoop_axis_run a b k hb hak hempty hwall (k - 1) 0 (by omega)
  simp only [Nat.cast_zero, add_zero, zero_add] at hrun
  simp only [hrun]
  norm_num

theorem axis_aligned_distance_witness :
    (2:ℕ) + 8 < 24 ∧ get_map_value (2 + 8) 2 = 1
      ∧ cast_ray ⟨((2:ℕ):ℝ), ((2:ℕ):ℝ), 0⟩ 0 = ((8:ℕ):ℝ) :=
  ⟨by norm_num, by decide,
   axis_aligned_distance 2 2 8 0 (by norm_num) (by norm_num) (by norm_num)
     (by decide) (by decide)⟩

end RaycastTUI
